import Mathlib

/-!
Load elimination: access descriptors and abstract state.

A shallow embedding of `src/compiler/simplified-operator.cc` (equality and
hashing of the access descriptors, the operators of the access, buffer,
check-maps and transition builders) and of the inline classes of
`src/compiler/load-elimination.h` (`AbstractElements`, `AbstractField`,
`AbstractState`). The methods that the header only declares are modelled from
the specification and marked so.

Conventions of the embedding:
* a `Node*` is the address of the node (nodes are compared by identity),
  `0` standing for `nullptr`;
* `size_t` and `int` values are `Nat` and `Int`; the arithmetic is
  `(i + 1) % 8` on an index below 8, which cannot overflow, and the `int`
  addition of `CheckMaps`, whose overflow is modelled as having no result;
* zone objects are immutable once built, so a `T const*` is modelled by the
  value it points to.
-/

namespace V8

/-! ## Access descriptors (`simplified-operator.cc`) -/

/-- The enum `BaseTaggedness`; its two enumerators are the cases of the
`switch` in `operator<<(std::ostream&, BaseTaggedness)`. -/
inductive BaseTaggedness where
  | kUntaggedBase
  | kTaggedBase
deriving DecidableEq, Repr

/-- Modelled from the spec: the class `MachineType` is declared in
`machine-type.h`, which is not among the files embedded here. It is a pair of
small enums (representation and semantic) whose `==` compares both. -/
structure MachineType where
  representation : Nat
  semantic : Nat
deriving DecidableEq, Repr

/-- Modelled from the spec: the struct `FieldAccess` is declared in
`simplified-operator.h`, which is not among the files embedded here; the fields
are the ones the spec lists and `operator<<` prints. `type` is a `Type*`, `name` a possibly empty handle,
`write_barrier_kind` the value of an enum. -/
structure FieldAccess where
  base_is_tagged : BaseTaggedness
  offset : Int
  name : Option Nat
  type : Nat
  machine_type : MachineType
  write_barrier_kind : Nat
deriving DecidableEq, Repr

/-- Modelled from the spec: the struct `ElementAccess` is declared in
`simplified-operator.h`, which is not among the files embedded here; the fields
are the ones the spec lists and `operator<<` prints. -/
structure ElementAccess where
  base_is_tagged : BaseTaggedness
  header_size : Int
  type : Nat
  machine_type : MachineType
  write_barrier_kind : Nat
deriving DecidableEq, Repr

/-- The function `bool operator==(FieldAccess const&, FieldAccess const&)`. -/
def FieldAccess.operator_eq (lhs rhs : FieldAccess) : Bool :=
  decide (lhs.base_is_tagged = rhs.base_is_tagged) && decide (lhs.offset = rhs.offset) &&
    decide (lhs.machine_type = rhs.machine_type)

/-- The function `bool operator!=(FieldAccess const&, FieldAccess const&)`. -/
def FieldAccess.operator_ne (lhs rhs : FieldAccess) : Bool :=
  !(FieldAccess.operator_eq lhs rhs)

/-- The function `size_t hash_value(FieldAccess const&)`. The variadic
`base::hash_combine` is defined in `base/functional.h`, which is not among the
files embedded here, and is a parameter: any function of the three values it is
called with. -/
def FieldAccess.hash_value (hash_combine : BaseTaggedness → Int → MachineType → Nat)
    (access : FieldAccess) : Nat :=
  hash_combine access.base_is_tagged access.offset access.machine_type

/-- The function `bool operator==(ElementAccess const&, ElementAccess const&)`. -/
def ElementAccess.operator_eq (lhs rhs : ElementAccess) : Bool :=
  decide (lhs.base_is_tagged = rhs.base_is_tagged) &&
    decide (lhs.header_size = rhs.header_size) &&
    decide (lhs.machine_type = rhs.machine_type)

/-- The function `bool operator!=(ElementAccess const&, ElementAccess const&)`. -/
def ElementAccess.operator_ne (lhs rhs : ElementAccess) : Bool :=
  !(ElementAccess.operator_eq lhs rhs)

/-- The function `size_t hash_value(ElementAccess const&)`, with
`base::hash_combine` a parameter as for `FieldAccess.hash_value`. -/
def ElementAccess.hash_value (hash_combine : BaseTaggedness → Int → MachineType → Nat)
    (access : ElementAccess) : Nat :=
  hash_combine access.base_is_tagged access.header_size access.machine_type

/-! ## Abstract elements (`load-elimination.h`) -/

/-- A `Node*`: the address of a node, compared by identity. -/
abbrev Node := Nat

/-- The null `Node*`. -/
def nullptr : Node := 0

/-- The constant `LoadElimination::kMaxTrackedElements`. -/
abbrev kMaxTrackedElements : Nat := 8

/-- The struct `AbstractElements::Element`; the default member initialisers
make `Element()` the all-null triple. -/
structure Element where
  object : Node := nullptr
  index : Node := nullptr
  value : Node := nullptr
deriving DecidableEq, Repr

/-- The class `AbstractElements`: the array `elements_[kMaxTrackedElements]`
and the cursor `next_index_` (a `size_t`, initialised to 0). -/
structure AbstractElements where
  elements_ : Fin kMaxTrackedElements → Element
  next_index_ : Nat := 0

/-- The constructor `AbstractElements(Zone*)`: every slot is set to `Element()`. -/
def AbstractElements.empty : AbstractElements :=
  { elements_ := fun _ => {}, next_index_ := 0 }

/-- The constructor `AbstractElements(Node* object, Node* index, Node* value, Zone*)`:
delegates to `AbstractElements(Zone*)`, then `elements_[next_index_++] = Element(..)`
with `next_index_` being 0. -/
def AbstractElements.single (object index value : Node) : AbstractElements :=
  { elements_ := Function.update AbstractElements.empty.elements_ ⟨0, by decide⟩
      { object := object, index := index, value := value },
    next_index_ := AbstractElements.empty.next_index_ + 1 }

/-- The method `AbstractElements::Extend`: copy the receiver, write the triple at
`next_index_`, advance the cursor modulo `arraysize(elements_)`. Writing outside
the array is undefined behaviour in the source; the model returns `none` there. -/
def AbstractElements.Extend (self : AbstractElements) (object index value : Node) :
    Option AbstractElements :=
  if h : self.next_index_ < kMaxTrackedElements then
    some { elements_ := Function.update self.elements_ ⟨self.next_index_, h⟩
             { object := object, index := index, value := value },
           next_index_ := (self.next_index_ + 1) % kMaxTrackedElements }
  else
    none

/-- Successive calls of `Extend`, one per triple of the list, from left to right. -/
def AbstractElements.ExtendAll (self : AbstractElements) : List Element → Option AbstractElements
  | [] => some self
  | t :: ts => (self.Extend t.object t.index t.value).bind (fun that => that.ExtendAll ts)

/-! ## Abstract fields (`load-elimination.h`)

`ZoneMap<Node*, Node*>` is a `std::map`: its entries are kept in strictly
ascending key order, one entry per key. -/

/-- The lookup `std::map::find` on the entries of a map: the value of the entry
whose key is `k`, if there is one (`none` stands for `end()`). -/
def entriesFind (k : Node) : List (Node × Node) → Option Node
  | [] => none
  | e :: rest => if e.1 = k then some e.2 else entriesFind k rest

/-- The insertion `std::map::insert(std::pair)` on the entries of a map: the
pair goes to its place in key order; when the key is already present the map
is left as it is. -/
def entriesInsert (p : Node × Node) : List (Node × Node) → List (Node × Node)
  | [] => [p]
  | e :: rest =>
    if p.1 < e.1 then p :: e :: rest
    else if p.1 = e.1 then e :: rest
    else e :: entriesInsert p rest

/-- The container `ZoneMap<Node*, Node*>`. -/
structure ZoneMap where
  entries : List (Node × Node)
  ordered : entries.Pairwise (fun a b => a.1 < b.1)

instance : DecidableEq ZoneMap := fun a b =>
  decidable_of_iff (a.entries = b.entries) (by cases a; cases b; simp)

/-- The empty map. -/
def ZoneMap.empty : ZoneMap := ⟨[], List.Pairwise.nil⟩

/-- The method `std::map::find`. -/
def ZoneMap.find (m : ZoneMap) (k : Node) : Option Node := entriesFind k m.entries

/-- The method `std::map::insert`. -/
def ZoneMap.insert (m : ZoneMap) (p : Node × Node) : ZoneMap :=
  { entries := entriesInsert p m.entries
    ordered := by
      have key : ∀ l : List (Node × Node), l.Pairwise (fun a b => a.1 < b.1) →
          (entriesInsert p l).Pairwise (fun a b => a.1 < b.1) ∧
            ∀ x ∈ entriesInsert p l, x = p ∨ x ∈ l := by
        intro l
        induction l with
        | nil => intro _; simp [entriesInsert]
        | cons e rest ih =>
          intro hl
          have hhead := (List.pairwise_cons.1 hl).1
          have ih2 := ih (List.pairwise_cons.1 hl).2
          unfold entriesInsert
          split_ifs with h1 h2
          · refine ⟨List.pairwise_cons.2 ⟨?_, hl⟩, fun x hx => List.mem_cons.1 hx⟩
            intro x hx
            rcases List.mem_cons.1 hx with hx | hx
            · rw [hx]; exact h1
            · exact lt_trans h1 (hhead x hx)
          · exact ⟨hl, fun x hx => Or.inr hx⟩
          · refine ⟨List.pairwise_cons.2 ⟨?_, ih2.1⟩, ?_⟩
            · intro x hx
              rcases ih2.2 x hx with hx | hx
              · rw [hx]; exact lt_of_le_of_ne (not_lt.1 h1) (Ne.symm h2)
              · exact hhead x hx
            · intro x hx
              rcases List.mem_cons.1 hx with hx | hx
              · exact Or.inr (hx ▸ List.mem_cons_self _ _)
              · rcases ih2.2 x hx with hx | hx
                · exact Or.inl hx
                · exact Or.inr (List.mem_cons_of_mem _ hx)
      exact (key m.entries m.ordered).1 }

/-- The `operator==` of `std::map`: same size and equal entries, position by
position. -/
def ZoneMap.operator_eq (m n : ZoneMap) : Bool := m.entries == n.entries

/-- The class `AbstractField`, whose only member is `info_for_node_`. -/
structure AbstractField where
  info_for_node_ : ZoneMap
deriving DecidableEq

/-- The constructor `AbstractField(Zone*)`. -/
def AbstractField.empty : AbstractField := { info_for_node_ := ZoneMap.empty }

/-- The constructor `AbstractField(Node* object, Node* value, Zone*)`. -/
def AbstractField.single (object value : Node) : AbstractField :=
  { info_for_node_ := ZoneMap.empty.insert (object, value) }

/-- The method `AbstractField::Extend`: copy the map, then `insert` the pair. -/
def AbstractField.Extend (self : AbstractField) (object value : Node) : AbstractField :=
  { info_for_node_ := self.info_for_node_.insert (object, value) }

/-- The method `AbstractField::Equals`: `this == that || info_for_node_ == that->info_for_node_`.
The pointer test is identity of the (immutable) objects. -/
def AbstractField.Equals (self that : AbstractField) : Bool :=
  decide (self = that) || self.info_for_node_.operator_eq that.info_for_node_

/-- The body of the loop of `AbstractField::Merge` for one entry `this_it` of the
receiver: it is inserted into `copy` when `that` has the same key with the
same value. -/
def AbstractField.MergeStep (that copy : AbstractField) (this_it : Node × Node) :
    AbstractField :=
  match that.info_for_node_.find this_it.1 with
  | some that_value =>
    if that_value = this_it.2 then { info_for_node_ := copy.info_for_node_.insert this_it }
    else copy
  | none => copy

/-- The method `AbstractField::Merge`. -/
def AbstractField.Merge (self that : AbstractField) : AbstractField :=
  if self.Equals that then self
  else self.info_for_node_.entries.foldl (AbstractField.MergeStep that) AbstractField.empty

/-- The field binds `object` to `value`: the pair is an entry of `info_for_node_`. -/
def AbstractField.Binds (self : AbstractField) (object value : Node) : Prop :=
  (object, value) ∈ self.info_for_node_.entries

instance (f : AbstractField) (object value : Node) : Decidable (f.Binds object value) :=
  inferInstanceAs (Decidable ((object, value) ∈ f.info_for_node_.entries))

/-! ## Abstract state (`load-elimination.h`) -/

/-- The constant `LoadElimination::kMaxTrackedFields`. -/
abbrev kMaxTrackedFields : Nat := 32

/-- The class `AbstractState`: the pointer `elements_` (null by default) and the
array `fields_[kMaxTrackedFields]` of pointers; `none` is the null pointer. -/
structure AbstractState where
  elements_ : Option AbstractElements := none
  fields_ : Fin kMaxTrackedFields → Option AbstractField

/-- The constructor `AbstractState()`: the loop stores `nullptr` in `fields_[i]`
for `i = 0 .. arraysize(fields_) - 1`. The array is not initialised before the
loop runs; `uninitialised` stands for whatever it holds then. -/
def AbstractState.construct (uninitialised : Fin kMaxTrackedFields → Option AbstractField) :
    AbstractState :=
  { elements_ := none
    fields_ := (List.finRange kMaxTrackedFields).foldl
      (fun fields i => Function.update fields i none) uninitialised }

/-- The member `empty_state_` of `LoadElimination`, a default-constructed
`AbstractState`, as `empty_state()` returns it. -/
def empty_state : AbstractState := AbstractState.construct (fun _ => none)

/-- The field slots of a state that are present (not null). -/
def AbstractState.presentFields (self : AbstractState) : Finset (Fin kMaxTrackedFields) :=
  Finset.univ.filter (fun i => (self.fields_ i).isSome)

/-- The slots of a ring that hold a record, that is, differ from `Element()`. -/
def AbstractElements.records (self : AbstractElements) : Finset (Fin kMaxTrackedElements) :=
  Finset.univ.filter (fun j => self.elements_ j ≠ {})

/-! ## Operators (`simplified-operator.cc`) -/

/-- Modelled from the spec: the operator property bits of `Operator::Property`
(declared in `operator.h`, which is not among the files embedded here). Each
flag used by the access, buffer, check-maps and transition operators is one
bit of its own. -/
inductive Property where
  | kNoRead
  | kNoWrite
  | kNoThrow
  | kNoDeopt
deriving DecidableEq, Repr

/-- Modelled from the spec: a value of `Operator::Properties`, the set of the
bits that are on; `|` is the union. -/
abbrev Properties := Finset Property

/-- The opcodes `IrOpcode::k...` of the operators embedded here. -/
inductive IrOpcode where
  | kLoadField
  | kStoreField
  | kLoadElement
  | kStoreElement
  | kLoadBuffer
  | kStoreBuffer
  | kCheckMaps
  | kTransitionElementsKind
deriving DecidableEq, Repr

/-- Modelled from the spec: the class `Operator` (declared in `operator.h`, which
is not among the files embedded here), with the members its constructor is
given: opcode, properties, mnemonic and the six counts, in the order value,
effect and control inputs, then value, effect and control outputs. -/
structure Operator where
  opcode : IrOpcode
  properties : Properties
  mnemonic : String
  value_in : Nat
  effect_in : Nat
  control_in : Nat
  value_out : Nat
  effect_out : Nat
  control_out : Nat
deriving DecidableEq

/-- Modelled from the spec: the class template `Operator1<T>`, an `Operator` with
a parameter of type `T`. -/
structure Operator1 (T : Type) extends Operator where
  parameter : T

/-- Modelled from the spec: the method `Operator::HasProperty`, whether every bit
of the property is on in `properties()`. -/
def Operator.HasProperty (op : Operator) (property : Property) : Bool :=
  decide (property ∈ op.properties)

/-- The enum `ExternalArrayType`; its enumerators are the cases of the `switch`
in `BufferAccess::machine_type`, one per entry of `TYPED_ARRAYS`. -/
inductive ExternalArrayType where
  | kExternalUint8Array
  | kExternalUint8ClampedArray
  | kExternalInt8Array
  | kExternalUint16Array
  | kExternalInt16Array
  | kExternalUint32Array
  | kExternalInt32Array
  | kExternalFloat32Array
  | kExternalFloat64Array
deriving DecidableEq, Repr

/-- The class `BufferAccess`, which wraps an `ExternalArrayType`. -/
structure BufferAccess where
  external_array_type_ : ExternalArrayType
deriving DecidableEq, Repr

/-- The accessor `BufferAccess::external_array_type()`. -/
def BufferAccess.external_array_type (access : BufferAccess) : ExternalArrayType :=
  access.external_array_type_

/-- The enum `ElementsTransition`; its enumerators are the cases of the `switch`
in `operator<<(std::ostream&, ElementsTransition)`. -/
inductive ElementsTransition where
  | kFastTransition
  | kSlowTransition
deriving DecidableEq, Repr

/-- The struct `LoadBuffer##Type##Operator` that `BUFFER_ACCESS` declares for the
array type `Type`; the cache holds one instance of it, `kLoadBuffer##Type`. -/
def SimplifiedOperatorGlobalCache.kLoadBuffer (type : ExternalArrayType) :
    Operator1 BufferAccess :=
  { opcode := .kLoadBuffer
    properties := {Property.kNoDeopt} ∪ {Property.kNoThrow} ∪ {Property.kNoWrite}
    mnemonic := "LoadBuffer"
    value_in := 3, effect_in := 1, control_in := 1
    value_out := 1, effect_out := 1, control_out := 0
    parameter := { external_array_type_ := type } }

/-- The struct `StoreBuffer##Type##Operator` that `BUFFER_ACCESS` declares for the
array type `Type`; the cache holds one instance of it, `kStoreBuffer##Type`. -/
def SimplifiedOperatorGlobalCache.kStoreBuffer (type : ExternalArrayType) :
    Operator1 BufferAccess :=
  { opcode := .kStoreBuffer
    properties := {Property.kNoDeopt} ∪ {Property.kNoRead} ∪ {Property.kNoThrow}
    mnemonic := "StoreBuffer"
    value_in := 4, effect_in := 1, control_in := 1
    value_out := 0, effect_out := 1, control_out := 0
    parameter := { external_array_type_ := type } }

/-- The largest `int`. -/
def kMaxInt : Int := 2 ^ 31 - 1

/-- The method `SimplifiedOperatorBuilder::CheckMaps`. `map_input_count` is an
`int`. The result is `none` when `DCHECK_LT(0, map_input_count)` fails and when
the `int` addition `1 + map_input_count` overflows, which is undefined behaviour
in the source. The counts are passed on as `size_t`. -/
def SimplifiedOperatorBuilder.CheckMaps (map_input_count : Int) : Option (Operator1 Int) :=
  if 0 < map_input_count then
    let value_input_count : Int := 1 + map_input_count
    if value_input_count ≤ kMaxInt then
      some { opcode := .kCheckMaps
             properties := {Property.kNoThrow} ∪ {Property.kNoWrite}
             mnemonic := "CheckMaps"
             value_in := value_input_count.toNat, effect_in := 1, control_in := 1
             value_out := 0, effect_out := 1, control_out := 0
             parameter := map_input_count }
    else
      none
  else
    none

/-- The method `SimplifiedOperatorBuilder::TransitionElementsKind`. -/
def SimplifiedOperatorBuilder.TransitionElementsKind (transition : ElementsTransition) :
    Operator1 ElementsTransition :=
  { opcode := .kTransitionElementsKind
    properties := {Property.kNoDeopt} ∪ {Property.kNoThrow}
    mnemonic := "TransitionElementsKind"
    value_in := 3, effect_in := 1, control_in := 1
    value_out := 0, effect_out := 1, control_out := 0
    parameter := transition }

/-- The method `SimplifiedOperatorBuilder::LoadBuffer`: the `switch` over the
array type returns the cached operator of that type. -/
def SimplifiedOperatorBuilder.LoadBuffer (access : BufferAccess) : Operator1 BufferAccess :=
  match access.external_array_type with
  | .kExternalUint8Array => SimplifiedOperatorGlobalCache.kLoadBuffer .kExternalUint8Array
  | .kExternalUint8ClampedArray =>
    SimplifiedOperatorGlobalCache.kLoadBuffer .kExternalUint8ClampedArray
  | .kExternalInt8Array => SimplifiedOperatorGlobalCache.kLoadBuffer .kExternalInt8Array
  | .kExternalUint16Array => SimplifiedOperatorGlobalCache.kLoadBuffer .kExternalUint16Array
  | .kExternalInt16Array => SimplifiedOperatorGlobalCache.kLoadBuffer .kExternalInt16Array
  | .kExternalUint32Array => SimplifiedOperatorGlobalCache.kLoadBuffer .kExternalUint32Array
  | .kExternalInt32Array => SimplifiedOperatorGlobalCache.kLoadBuffer .kExternalInt32Array
  | .kExternalFloat32Array => SimplifiedOperatorGlobalCache.kLoadBuffer .kExternalFloat32Array
  | .kExternalFloat64Array => SimplifiedOperatorGlobalCache.kLoadBuffer .kExternalFloat64Array

/-- The method `SimplifiedOperatorBuilder::StoreBuffer`: the `switch` over the
array type returns the cached operator of that type. -/
def SimplifiedOperatorBuilder.StoreBuffer (access : BufferAccess) : Operator1 BufferAccess :=
  match access.external_array_type with
  | .kExternalUint8Array => SimplifiedOperatorGlobalCache.kStoreBuffer .kExternalUint8Array
  | .kExternalUint8ClampedArray =>
    SimplifiedOperatorGlobalCache.kStoreBuffer .kExternalUint8ClampedArray
  | .kExternalInt8Array => SimplifiedOperatorGlobalCache.kStoreBuffer .kExternalInt8Array
  | .kExternalUint16Array => SimplifiedOperatorGlobalCache.kStoreBuffer .kExternalUint16Array
  | .kExternalInt16Array => SimplifiedOperatorGlobalCache.kStoreBuffer .kExternalInt16Array
  | .kExternalUint32Array => SimplifiedOperatorGlobalCache.kStoreBuffer .kExternalUint32Array
  | .kExternalInt32Array => SimplifiedOperatorGlobalCache.kStoreBuffer .kExternalInt32Array
  | .kExternalFloat32Array => SimplifiedOperatorGlobalCache.kStoreBuffer .kExternalFloat32Array
  | .kExternalFloat64Array => SimplifiedOperatorGlobalCache.kStoreBuffer .kExternalFloat64Array

/-- The body that `ACCESS(Name, Type, properties, value_input_count,
control_input_count, output_count)` gives `SimplifiedOperatorBuilder::Name`. -/
def ACCESS {T : Type} (opcode : IrOpcode) (name : String) (properties : Properties)
    (value_input_count control_input_count output_count : Nat) (access : T) : Operator1 T :=
  { opcode := opcode
    properties := {Property.kNoDeopt} ∪ {Property.kNoThrow} ∪ properties
    mnemonic := name
    value_in := value_input_count, effect_in := 1, control_in := control_input_count
    value_out := output_count, effect_out := 1, control_out := 0
    parameter := access }

/-- The method `SimplifiedOperatorBuilder::LoadField`, first row of `ACCESS_OP_LIST`. -/
def SimplifiedOperatorBuilder.LoadField (access : FieldAccess) : Operator1 FieldAccess :=
  ACCESS .kLoadField "LoadField" {Property.kNoWrite} 1 1 1 access

/-- The method `SimplifiedOperatorBuilder::StoreField`, second row of `ACCESS_OP_LIST`. -/
def SimplifiedOperatorBuilder.StoreField (access : FieldAccess) : Operator1 FieldAccess :=
  ACCESS .kStoreField "StoreField" {Property.kNoRead} 2 1 0 access

/-- The method `SimplifiedOperatorBuilder::LoadElement`, third row of `ACCESS_OP_LIST`. -/
def SimplifiedOperatorBuilder.LoadElement (access : ElementAccess) : Operator1 ElementAccess :=
  ACCESS .kLoadElement "LoadElement" {Property.kNoWrite} 2 1 1 access

/-- The method `SimplifiedOperatorBuilder::StoreElement`, fourth row of `ACCESS_OP_LIST`. -/
def SimplifiedOperatorBuilder.StoreElement (access : ElementAccess) : Operator1 ElementAccess :=
  ACCESS .kStoreElement "StoreElement" {Property.kNoRead} 3 1 0 access

/-- The function `FieldAccessOf`: the parameter of a `LoadField` or `StoreField`
operator; `none` when the `DCHECK` on the opcode fails. -/
def FieldAccessOf (op : Operator1 FieldAccess) : Option FieldAccess :=
  if op.opcode = .kLoadField ∨ op.opcode = .kStoreField then some op.parameter else none

/-- The function `ElementAccessOf`: the parameter of a `LoadElement` or
`StoreElement` operator; `none` when the `DCHECK` on the opcode fails. -/
def ElementAccessOf (op : Operator1 ElementAccess) : Option ElementAccess :=
  if op.opcode = .kLoadElement ∨ op.opcode = .kStoreElement then some op.parameter else none

/-! ## State table and reducer (`load-elimination.h`, bodies in `load-elimination.cc`)

The header declares these methods; their bodies are in `load-elimination.cc`,
which is not among the files embedded here. -/

/-- Modelled from the spec: the body of `AbstractField::Lookup` is missing; the
spec words it as the identity-keyed lookup of `object` in the field. -/
def AbstractField.Lookup (self : AbstractField) (object : Node) : Option Node :=
  self.info_for_node_.find object

/-- Modelled from the spec: the body of `AbstractElements::Equals` is missing; the
spec words it as elementwise identity equality of all slots. -/
def AbstractElements.Equals (self that : AbstractElements) : Bool :=
  decide (∀ j, self.elements_ j = that.elements_ j)

/-- The slot of `fields_` a field index stands for: indices in
`[0, kMaxTrackedFields)` are tracked, every other index (the spec's `-1`) is
untracked. -/
def fieldSlot (index : Int) : Option (Fin kMaxTrackedFields) :=
  if h : 0 ≤ index ∧ index < kMaxTrackedFields then some ⟨index.toNat, by omega⟩ else none

/-- Modelled from the spec: the body of `AbstractState::LookupField` is missing;
the spec words it as forwarding to `fields[i]` if present. -/
def AbstractState.LookupField (self : AbstractState) (object : Node) (index : Int) :
    Option Node :=
  match fieldSlot index with
  | some i =>
    match self.fields_ i with
    | some this_field => this_field.Lookup object
    | none => none
  | none => none

/-- Modelled from the spec: the body of `AbstractState::AddField` is missing; the
spec words it as `fields'[i] := fields[i].Extend(object, value)`, creating a
fresh `AbstractField` if `fields[i]` was absent, and returning the state
unchanged for an untracked index. -/
def AbstractState.AddField (self : AbstractState) (object : Node) (index : Int)
    (value : Node) : AbstractState :=
  match fieldSlot index with
  | some i =>
    { self with
      fields_ := Function.update self.fields_ i
        (some (match self.fields_ i with
          | some this_field => this_field.Extend object value
          | none => AbstractField.single object value)) }
  | none => self

/-- Modelled from the spec: the kill the spec's `StoreField` rule names
`KillField_for_aliasing(i)`, which clears all bindings in field slot `i` (the
slot becomes absent) and does nothing for an untracked index. -/
def AbstractState.KillField_for_aliasing (self : AbstractState) (index : Int) :
    AbstractState :=
  match fieldSlot index with
  | some i => { self with fields_ := Function.update self.fields_ i none }
  | none => self

/-- The comparison of two field slots: both absent, or both present and `Equals`. -/
def fieldSlotEquals (this_field that_field : Option AbstractField) : Bool :=
  match this_field, that_field with
  | some a, some b => a.Equals b
  | none, none => true
  | _, _ => false

/-- Modelled from the spec: the body of `AbstractState::Equals` is missing; the
spec words it as slot-wise `Equals` for all field slots and the elements slot. -/
def AbstractState.Equals (self that : AbstractState) : Bool :=
  (match self.elements_, that.elements_ with
    | some a, some b => a.Equals b
    | none, none => true
    | _, _ => false) &&
  (List.finRange kMaxTrackedFields).all
    (fun i => fieldSlotEquals (self.fields_ i) (that.fields_ i))

/-- The class `AbstractStateForEffectNodes`: the vector `info_for_node_` of state
pointers, indexed by node id; `none` is the null pointer. -/
structure AbstractStateForEffectNodes where
  info_for_node_ : List (Option AbstractState)

/-- Modelled from the spec: the body of `AbstractStateForEffectNodes::Get` is
missing; the spec words the table as a dense indexed store keyed by the node's
stable integer id. `id` gives the id of a node. -/
def AbstractStateForEffectNodes.Get (id : Node → Nat) (self : AbstractStateForEffectNodes)
    (node : Node) : Option AbstractState :=
  match self.info_for_node_[id node]? with
  | some state => state
  | none => none

/-- Modelled from the spec: the body of `AbstractStateForEffectNodes::Set` is
missing; the spec words it as an unconditional store at the node's id. The
vector grows, with null entries, up to that id when it is too short. -/
def AbstractStateForEffectNodes.Set (id : Node → Nat) (self : AbstractStateForEffectNodes)
    (node : Node) (state : AbstractState) : AbstractStateForEffectNodes :=
  let i := id node
  let resized :=
    if i < self.info_for_node_.length then self.info_for_node_
    else self.info_for_node_ ++ List.replicate (i + 1 - self.info_for_node_.length) none
  { info_for_node_ := resized.set i (some state) }

/-- The verdict of a reducer: `NoChange`, `Replace(node)` or `Changed(node)`. -/
inductive Reduction where
  | NoChange
  | Replace (replacement : Node)
  | Changed (node : Node)
deriving DecidableEq, Repr

/-- The class `LoadElimination`, of which the embedding keeps the member
`node_states_`. -/
structure LoadElimination where
  node_states_ : AbstractStateForEffectNodes

/-- Modelled from the spec: the body of `LoadElimination::UpdateState` is missing.
The spec: let `S_old = StateTable.Get(node)`; if `S_old` is present and
`S_old.Equals(S_new)`, return `NoChange`; otherwise `StateTable.Set(node, S_new)`
and return `Changed(node)`. -/
def LoadElimination.UpdateState (id : Node → Nat) (self : LoadElimination) (node : Node)
    (state : AbstractState) : Reduction × LoadElimination :=
  match self.node_states_.Get id node with
  | some original =>
    if original.Equals state then (.NoChange, self)
    else (.Changed node, { node_states_ := self.node_states_.Set id node state })
  | none => (.Changed node, { node_states_ := self.node_states_.Set id node state })

/-- Modelled from the spec: the body of `LoadElimination::ReduceLoadField` is
missing. `object` and `effect` are the value input and the effect input of
`node`, `access` the parameter of its operator, and `FieldIndexOf` the static
function of that name (its body is missing too). The spec: if the state of the
effect input is absent, `NoChange`; if `i >= 0` and `S_in.LookupField(object, i)`
is present, replace `node` with it; otherwise
`UpdateState(node, S_in.AddField(object, i, node))`. -/
def LoadElimination.ReduceLoadField (id : Node → Nat) (FieldIndexOf : FieldAccess → Int)
    (self : LoadElimination) (node object effect : Node) (access : FieldAccess) :
    Reduction × LoadElimination :=
  match self.node_states_.Get id effect with
  | none => (.NoChange, self)
  | some state =>
    let field_index := FieldIndexOf access
    match (if 0 ≤ field_index then state.LookupField object field_index else none) with
    | some replacement => (.Replace replacement, self)
    | none => self.UpdateState id node (state.AddField object field_index node)

/-- Modelled from the spec: the body of `LoadElimination::ReduceStoreField` is
missing. `object` and `value` are the value inputs and `effect` the effect input
of `node`. The spec: if the state of the effect input is absent, `NoChange`; if
`i >= 0` and `S_in.LookupField(object, i)` is identity-equal to `value`, the
store is elided with `Replace(effect_input)`; otherwise
`S_kill = S_in.KillField_for_aliasing(i)`, `S_out = S_kill.AddField(object, i, value)`
and `UpdateState(node, S_out)`. -/
def LoadElimination.ReduceStoreField (id : Node → Nat) (FieldIndexOf : FieldAccess → Int)
    (self : LoadElimination) (node object value effect : Node) (access : FieldAccess) :
    Reduction × LoadElimination :=
  match self.node_states_.Get id effect with
  | none => (.NoChange, self)
  | some state =>
    let field_index := FieldIndexOf access
    if 0 ≤ field_index ∧ state.LookupField object field_index = some value then
      (.Replace effect, self)
    else
      self.UpdateState id node
        ((state.KillField_for_aliasing field_index).AddField object field_index value)

/-! ## Theorems: access descriptors -/

/-- C1: `a == b` on `FieldAccess` holds exactly when `base_is_tagged`, `offset`
and `machine_type` agree; in particular a descriptor stays equal to itself
whatever `write_barrier_kind`, `type` and `name` are replaced by. -/
theorem FieldAccess_operator_eq_iff (a b : FieldAccess) :
    (FieldAccess.operator_eq a b = true ↔
      a.base_is_tagged = b.base_is_tagged ∧ a.offset = b.offset ∧
        a.machine_type = b.machine_type) ∧
    (∀ (wb ty : Nat) (nm : Option Nat),
      FieldAccess.operator_eq a { a with write_barrier_kind := wb, type := ty, name := nm }
        = true) := by
  constructor
  · simp [FieldAccess.operator_eq, and_assoc]
  · intro wb ty nm
    simp [FieldAccess.operator_eq]

/-- C2: `a == b` on `ElementAccess` holds exactly when `base_is_tagged`,
`header_size` and `machine_type` agree; in particular a descriptor stays equal
to itself whatever `write_barrier_kind` and `type` are replaced by. -/
theorem ElementAccess_operator_eq_iff (a b : ElementAccess) :
    (ElementAccess.operator_eq a b = true ↔
      a.base_is_tagged = b.base_is_tagged ∧ a.header_size = b.header_size ∧
        a.machine_type = b.machine_type) ∧
    (∀ (wb ty : Nat),
      ElementAccess.operator_eq a { a with write_barrier_kind := wb, type := ty } = true) := by
  constructor
  · simp [ElementAccess.operator_eq, and_assoc]
  · intro wb ty
    simp [ElementAccess.operator_eq]

/-! ## Theorems: abstract elements -/

theorem AbstractElements.Extend_of_lt (r : AbstractElements) (object index value : Node)
    (hc : r.next_index_ < kMaxTrackedElements) :
    r.Extend object index value =
      some { elements_ := Function.update r.elements_ ⟨r.next_index_, hc⟩
               { object := object, index := index, value := value },
             next_index_ := (r.next_index_ + 1) % kMaxTrackedElements } := by
  unfold AbstractElements.Extend
  exact dif_pos hc

theorem AbstractElements.ExtendAll_append (r : AbstractElements) (ts : List Element)
    (t : Element) :
    r.ExtendAll (ts ++ [t]) =
      (r.ExtendAll ts).bind (fun that => that.Extend t.object t.index t.value) := by
  induction ts generalizing r with
  | nil =>
    cases h : r.Extend t.object t.index t.value <;> simp [AbstractElements.ExtendAll, h]
  | cons u us ih =>
    cases h : r.Extend u.object u.index u.value with
    | none => simp [AbstractElements.ExtendAll, h]
    | some r1 => simp [AbstractElements.ExtendAll, h, ih]

/-- The ring after one `Extend` per triple of `ts`, starting from the empty ring:
it exists, its cursor is `ts.length % 8`, each of the last 8 triples sits in the
slot of its position modulo 8, and the slots never written are empty. -/
theorem AbstractElements.ExtendAll_empty (ts : List Element) :
    ∃ r : AbstractElements, AbstractElements.empty.ExtendAll ts = some r ∧
      r.next_index_ = ts.length % kMaxTrackedElements ∧
      (∀ k, k < ts.length → ts.length ≤ k + kMaxTrackedElements →
        ts[k]? = some (r.elements_ ⟨k % kMaxTrackedElements, Nat.mod_lt k (by decide)⟩)) ∧
      (∀ j : Fin kMaxTrackedElements, ts.length ≤ j.val → r.elements_ j = {}) := by
  induction ts using List.reverseRecOn with
  | nil =>
    refine ⟨AbstractElements.empty, rfl, rfl, ?_, ?_⟩
    · intro k hk
      simp at hk
    · intro j _
      rfl
  | append_singleton ts t ih =>
    obtain ⟨r, hr, hcur, hwin, hempty⟩ := ih
    have hc : r.next_index_ < kMaxTrackedElements := by
      rw [hcur]; exact Nat.mod_lt _ (by decide)
    refine ⟨{ elements_ := Function.update r.elements_ ⟨r.next_index_, hc⟩
                { object := t.object, index := t.index, value := t.value },
              next_index_ := (r.next_index_ + 1) % kMaxTrackedElements }, ?_, ?_, ?_, ?_⟩
    · rw [AbstractElements.ExtendAll_append, hr, Option.some_bind,
        AbstractElements.Extend_of_lt r _ _ _ hc]
    · simp only [hcur, List.length_append, List.length_singleton, kMaxTrackedElements]
      omega
    · intro k hk hle
      simp only [List.length_append, List.length_singleton] at hk hle
      by_cases hkn : k = ts.length
      · subst hkn
        have hfin : (⟨ts.length % kMaxTrackedElements, Nat.mod_lt _ (by decide)⟩ :
            Fin kMaxTrackedElements) = ⟨r.next_index_, hc⟩ := Fin.ext hcur.symm
        dsimp only
        rw [hfin, Function.update_same]
        simp
      · have hk2 : k < ts.length := by omega
        have hne : (⟨k % kMaxTrackedElements, Nat.mod_lt _ (by decide)⟩ :
            Fin kMaxTrackedElements) ≠ ⟨r.next_index_, hc⟩ := by
          intro h
          have h2 := congrArg Fin.val h
          simp only [hcur, kMaxTrackedElements] at h2
          simp only [kMaxTrackedElements] at hle
          omega
        dsimp only
        rw [Function.update_noteq hne, List.getElem?_append_left hk2]
        exact hwin k hk2 (by omega)
    · intro j hj
      simp only [List.length_append, List.length_singleton] at hj
      have hj8 := j.isLt
      have hne : j ≠ ⟨r.next_index_, hc⟩ := by
        intro h
        have h2 := congrArg Fin.val h
        simp only [hcur, kMaxTrackedElements] at h2 hj8
        omega
      dsimp only
      rw [Function.update_noteq hne]
      exact hempty j (by omega)

/-- C5: on a ring whose cursor `c` is below 8, `Extend(object, index, value)`
returns a ring whose slot `c` holds exactly that triple, whose other slots are
those of the receiver, and whose cursor is `(c + 1) mod 8`. -/
theorem AbstractElements_Extend_spec (r : AbstractElements) (object index value : Node)
    (hc : r.next_index_ < 8) :
    ∃ that : AbstractElements, r.Extend object index value = some that ∧
      that.elements_ ⟨r.next_index_, hc⟩ =
        { object := object, index := index, value := value } ∧
      (∀ j : Fin kMaxTrackedElements, j.val ≠ r.next_index_ →
        that.elements_ j = r.elements_ j) ∧
      that.next_index_ = (r.next_index_ + 1) % 8 := by
  refine ⟨_, AbstractElements.Extend_of_lt r object index value hc, ?_, ?_, rfl⟩
  · exact Function.update_same _ _ _
  · intro j hj
    exact Function.update_noteq (fun h => hj (congrArg Fin.val h)) _ _

/-- Witness of C5: the ring holding one triple has cursor 1; extending it writes
slot 1, keeps the other slots and moves the cursor to 2. -/
theorem AbstractElements_Extend_spec_witness :
    ∃ that : AbstractElements, (AbstractElements.single 10 11 12).Extend 20 21 22 = some that ∧
      that.elements_ ⟨1, by decide⟩ = { object := 20, index := 21, value := 22 } ∧
      (∀ j : Fin kMaxTrackedElements, j.val ≠ 1 →
        that.elements_ j = (AbstractElements.single 10 11 12).elements_ j) ∧
      that.next_index_ = 2 :=
  AbstractElements_Extend_spec (AbstractElements.single 10 11 12) 20 21 22 (by decide)

/-- C6: after one `Extend` per triple of `ts` (`n = ts.length`) from the empty
ring, the ring exists and (positions counted from 0) every triple `ts[k]` with
`n - 8 ≤ k < n` is in slot `k mod 8`; every slot either holds one of these last
`min n 8` triples or was never written and is empty; and for `n ≥ 8` the slot at
the cursor holds the oldest surviving triple `ts[n - 8]`, which the next `Extend`
overwrites, leaving the other slots as they are. -/
theorem AbstractElements_ring_window (ts : List Element) :
    ∃ r : AbstractElements, AbstractElements.empty.ExtendAll ts = some r ∧
      (∀ k, k < ts.length → ts.length ≤ k + kMaxTrackedElements →
        ts[k]? = some (r.elements_ ⟨k % kMaxTrackedElements, Nat.mod_lt k (by decide)⟩)) ∧
      (∀ j : Fin kMaxTrackedElements,
        (j.val < min ts.length kMaxTrackedElements ∧
          ∃ k, k < ts.length ∧ ts.length ≤ k + kMaxTrackedElements ∧
            k % kMaxTrackedElements = j.val ∧ ts[k]? = some (r.elements_ j)) ∨
        (min ts.length kMaxTrackedElements ≤ j.val ∧ r.elements_ j = {})) ∧
      (kMaxTrackedElements ≤ ts.length → ∀ t : Element,
        ∃ that : AbstractElements, r.Extend t.object t.index t.value = some that ∧
          ts[ts.length - kMaxTrackedElements]? =
            some (r.elements_ ⟨ts.length % kMaxTrackedElements, Nat.mod_lt _ (by decide)⟩) ∧
          that.elements_ ⟨ts.length % kMaxTrackedElements, Nat.mod_lt _ (by decide)⟩ = t ∧
          (∀ j : Fin kMaxTrackedElements, j.val ≠ ts.length % kMaxTrackedElements →
            that.elements_ j = r.elements_ j)) := by
  obtain ⟨r, hr, hcur, hwin, hempty⟩ := AbstractElements.ExtendAll_empty ts
  have hc : r.next_index_ < kMaxTrackedElements := by
    rw [hcur]; exact Nat.mod_lt _ (by decide)
  refine ⟨r, hr, hwin, ?_, ?_⟩
  · intro j
    have hj8 := j.isLt
    by_cases hjn : j.val < ts.length
    · left
      refine ⟨by simp only [kMaxTrackedElements] at hj8 ⊢; omega, ?_⟩
      have hk1 : ts.length - 1 - (ts.length - 1 - j.val) % kMaxTrackedElements < ts.length := by
        simp only [kMaxTrackedElements]; omega
      have hk2 : ts.length ≤
          ts.length - 1 - (ts.length - 1 - j.val) % kMaxTrackedElements + kMaxTrackedElements := by
        simp only [kMaxTrackedElements]; omega
      have hk3 : (ts.length - 1 - (ts.length - 1 - j.val) % kMaxTrackedElements)
          % kMaxTrackedElements = j.val := by
        simp only [kMaxTrackedElements] at hj8 ⊢; omega
      refine ⟨_, hk1, hk2, hk3, ?_⟩
      rw [hwin _ hk1 hk2]
      exact congrArg (fun i => some (r.elements_ i)) (Fin.ext hk3)
    · right
      exact ⟨by simp only [kMaxTrackedElements] at hj8 ⊢; omega, hempty j (by omega)⟩
  · intro h8 t
    have hfin : (⟨ts.length % kMaxTrackedElements, Nat.mod_lt _ (by decide)⟩ :
        Fin kMaxTrackedElements) = ⟨r.next_index_, hc⟩ := Fin.ext hcur.symm
    refine ⟨_, AbstractElements.Extend_of_lt r t.object t.index t.value hc, ?_, ?_, ?_⟩
    · have hk1 : ts.length - kMaxTrackedElements < ts.length := by
        simp only [kMaxTrackedElements] at h8 ⊢; omega
      have hk2 : ts.length ≤ ts.length - kMaxTrackedElements + kMaxTrackedElements := by
        omega
      have hk3 : (ts.length - kMaxTrackedElements) % kMaxTrackedElements =
          ts.length % kMaxTrackedElements := by
        simp only [kMaxTrackedElements] at h8 ⊢; omega
      rw [hwin _ hk1 hk2]
      exact congrArg (fun i => some (r.elements_ i)) (Fin.ext hk3)
    · dsimp only
      rw [hfin, Function.update_same]
    · intro j hj
      dsimp only
      refine Function.update_noteq (fun h => hj ?_) _ _
      exact (congrArg Fin.val h).trans hcur

/-! ## Theorems: abstract fields -/

theorem entriesFind_eq_some_iff (l : List (Node × Node))
    (hl : l.Pairwise (fun a b => a.1 < b.1)) (k v : Node) :
    entriesFind k l = some v ↔ (k, v) ∈ l := by
  induction l with
  | nil => simp [entriesFind]
  | cons e rest ih =>
    have hrest := (List.pairwise_cons.1 hl).2
    have hhead := (List.pairwise_cons.1 hl).1
    unfold entriesFind
    split_ifs with h1
    · constructor
      · intro h
        have h2 : e.2 = v := Option.some.inj h
        rw [← h1, ← h2]
        exact List.mem_cons_self _ _
      · intro h
        rcases List.mem_cons.1 h with h | h
        · rw [← h]
        · have := hhead _ h
          simp only [h1] at this
          exact absurd this (lt_irrefl _)
    · rw [ih hrest]
      constructor
      · exact List.mem_cons_of_mem _
      · intro h
        rcases List.mem_cons.1 h with h | h
        · exact absurd (congrArg Prod.fst h).symm h1
        · exact h

theorem entriesInsert_of_key_mem (p : Node × Node) (l : List (Node × Node))
    (hl : l.Pairwise (fun a b => a.1 < b.1)) (h : ∃ e ∈ l, e.1 = p.1) :
    entriesInsert p l = l := by
  induction l with
  | nil => simp at h
  | cons e rest ih =>
    have hrest := (List.pairwise_cons.1 hl).2
    have hhead := (List.pairwise_cons.1 hl).1
    obtain ⟨x, hx, hxp⟩ := h
    unfold entriesInsert
    split_ifs with h1 h2
    · rcases List.mem_cons.1 hx with hx | hx
      · rw [hx] at hxp
        exact absurd (hxp ▸ h1) (lt_irrefl _)
      · have h3 := hhead x hx
        rw [hxp] at h3
        exact absurd (lt_trans h1 h3) (lt_irrefl _)
    · rfl
    · rcases List.mem_cons.1 hx with hx | hx
      · rw [hx] at hxp
        exact absurd hxp.symm h2
      · rw [ih hrest ⟨x, hx, hxp⟩]

theorem mem_entriesInsert_of_key_not_mem (p x : Node × Node) (l : List (Node × Node))
    (h : ∀ e ∈ l, e.1 ≠ p.1) : x ∈ entriesInsert p l ↔ x = p ∨ x ∈ l := by
  induction l with
  | nil => simp [entriesInsert]
  | cons e rest ih =>
    have he : e.1 ≠ p.1 := h e (List.mem_cons_self _ _)
    have ih2 := ih (fun y hy => h y (List.mem_cons_of_mem _ hy))
    unfold entriesInsert
    split_ifs with h1 h2
    · simp
    · exact absurd h2.symm he
    · rw [List.mem_cons, ih2, List.mem_cons]
      tauto

/-- Membership after `std::map::insert`: the old entries, and the new pair when
its key was not yet present. -/
theorem ZoneMap.mem_insert_iff (m : ZoneMap) (p x : Node × Node) :
    x ∈ (m.insert p).entries ↔
      x ∈ m.entries ∨ (x = p ∧ ∀ e ∈ m.entries, e.1 ≠ p.1) := by
  by_cases h : ∃ e ∈ m.entries, e.1 = p.1
  · have h2 : (m.insert p).entries = m.entries :=
      entriesInsert_of_key_mem p m.entries m.ordered h
    rw [h2]
    constructor
    · exact Or.inl
    · rintro (h3 | ⟨_, h3⟩)
      · exact h3
      · obtain ⟨e, he, hep⟩ := h
        exact absurd hep (h3 e he)
  · have h2 : ∀ e ∈ m.entries, e.1 ≠ p.1 := fun e he hep => h ⟨e, he, hep⟩
    have h3 : x ∈ (m.insert p).entries ↔ x = p ∨ x ∈ m.entries :=
      mem_entriesInsert_of_key_not_mem p x m.entries h2
    rw [h3]
    tauto

theorem ZoneMap.find_eq_some_iff (m : ZoneMap) (k v : Node) :
    m.find k = some v ↔ (k, v) ∈ m.entries :=
  entriesFind_eq_some_iff m.entries m.ordered k v

theorem ZoneMap.value_unique (m : ZoneMap) (k v w : Node)
    (hv : (k, v) ∈ m.entries) (hw : (k, w) ∈ m.entries) : v = w := by
  have h1 := (m.find_eq_some_iff k v).2 hv
  have h2 := (m.find_eq_some_iff k w).2 hw
  rw [h1] at h2
  exact Option.some.inj h2

theorem ZoneMap.entries_eq_of_mem_iff (m n : ZoneMap)
    (h : ∀ x, x ∈ m.entries ↔ x ∈ n.entries) : m.entries = n.entries := by
  haveI : IsIrrefl (Node × Node) (fun a b => a.1 < b.1) := ⟨fun a => lt_irrefl a.1⟩
  haveI : IsAntisymm (Node × Node) (fun a b => a.1 < b.1) :=
    ⟨fun a b hab hba => absurd (lt_trans hab hba) (lt_irrefl _)⟩
  have d1 : m.entries.Nodup := List.Pairwise.nodup m.ordered
  have d2 : n.entries.Nodup := List.Pairwise.nodup n.ordered
  exact List.eq_of_perm_of_sorted ((List.perm_ext_iff_of_nodup d1 d2).2 h) m.ordered n.ordered

theorem AbstractField.Equals_iff_entries (a b : AbstractField) :
    a.Equals b = true ↔ a.info_for_node_.entries = b.info_for_node_.entries := by
  unfold AbstractField.Equals ZoneMap.operator_eq
  rw [Bool.or_eq_true, decide_eq_true_iff, beq_iff_eq]
  constructor
  · rintro (h | h)
    · rw [h]
    · exact h
  · exact Or.inr

theorem AbstractField.mem_foldl_MergeStep (that : AbstractField) (l : List (Node × Node))
    (copy : AbstractField) (hl : l.Pairwise (fun a b => a.1 ≠ b.1))
    (hd : ∀ c ∈ copy.info_for_node_.entries, ∀ e ∈ l, c.1 ≠ e.1) (x : Node × Node) :
    x ∈ (l.foldl (AbstractField.MergeStep that) copy).info_for_node_.entries ↔
      x ∈ copy.info_for_node_.entries ∨ (x ∈ l ∧ that.info_for_node_.find x.1 = some x.2) := by
  induction l generalizing copy with
  | nil => simp
  | cons e rest ih =>
    have hrest := (List.pairwise_cons.1 hl).2
    have hhead := (List.pairwise_cons.1 hl).1
    rw [List.foldl_cons]
    by_cases hm : that.info_for_node_.find e.1 = some e.2
    · have hstep : AbstractField.MergeStep that copy e =
          { info_for_node_ := copy.info_for_node_.insert e } := by
        simp [AbstractField.MergeStep, hm]
      have habs : ∀ c ∈ copy.info_for_node_.entries, c.1 ≠ e.1 :=
        fun c hc => hd c hc e (List.mem_cons_self _ _)
      have hmem : ∀ y, y ∈ (copy.info_for_node_.insert e).entries ↔
          y ∈ copy.info_for_node_.entries ∨ y = e := by
        intro y
        rw [ZoneMap.mem_insert_iff]
        constructor
        · rintro (h | ⟨h, _⟩)
          · exact Or.inl h
          · exact Or.inr h
        · rintro (h | h)
          · exact Or.inl h
          · exact Or.inr ⟨h, habs⟩
      rw [hstep, ih _ hrest]
      · dsimp only
        rw [hmem, List.mem_cons]
        constructor
        · rintro ((h | h) | ⟨h1, h2⟩)
          · exact Or.inl h
          · exact Or.inr ⟨Or.inl h, by rw [h]; exact hm⟩
          · exact Or.inr ⟨Or.inr h1, h2⟩
        · rintro (h | ⟨h1 | h1, h2⟩)
          · exact Or.inl (Or.inl h)
          · exact Or.inl (Or.inr h1)
          · exact Or.inr ⟨h1, h2⟩
      · intro c hc r hr
        dsimp only at hc
        rcases (hmem c).1 hc with hc | hc
        · exact hd c hc r (List.mem_cons_of_mem _ hr)
        · rw [hc]; exact hhead r hr
    · have hstep : AbstractField.MergeStep that copy e = copy := by
        unfold AbstractField.MergeStep
        cases hf : that.info_for_node_.find e.1 with
        | none => rfl
        | some w =>
          have hw : w ≠ e.2 := fun h => hm (by rw [hf, h])
          simp [hw]
      rw [hstep, ih _ hrest (fun c hc r hr => hd c hc r (List.mem_cons_of_mem _ hr)),
        List.mem_cons]
      constructor
      · rintro (h | ⟨h1, h2⟩)
        · exact Or.inl h
        · exact Or.inr ⟨Or.inr h1, h2⟩
      · rintro (h | ⟨h1 | h1, h2⟩)
        · exact Or.inl h
        · rw [h1] at h2; exact absurd h2 hm
        · exact Or.inr ⟨h1, h2⟩

/-- C3 (as stated, refuted): the field that binds node 1 to node 2, extended with
the pair (1, 3), does not bind 1 to 3; it still binds 1 to 2, since
`std::map::insert` leaves an entry whose key is present as it is. -/
theorem AbstractField_Extend_keeps_prior_binding :
    (AbstractField.single 1 2).Binds 1 2 ∧
      ¬ ((AbstractField.single 1 2).Extend 1 3).Binds 1 3 ∧
      ((AbstractField.single 1 2).Extend 1 3).Binds 1 2 := by
  decide

/-- C3 (amended): `f.Extend(o, v)` binds `o` to `v`, and to nothing else, when `f`
has no binding of `o`; when `f` already binds `o` to `w`, the result binds `o` to
`w`, and to nothing else. -/
theorem AbstractField_Extend_binds (f : AbstractField) (o v : Node) :
    ((∀ w, ¬ f.Binds o w) → ∀ x, (f.Extend o v).Binds o x ↔ x = v) ∧
    (∀ w, f.Binds o w → ∀ x, (f.Extend o v).Binds o x ↔ x = w) := by
  unfold AbstractField.Binds AbstractField.Extend
  constructor
  · intro hnone x
    dsimp only
    rw [ZoneMap.mem_insert_iff]
    constructor
    · rintro (h | ⟨h, _⟩)
      · exact absurd h (hnone x)
      · exact congrArg Prod.snd h
    · intro h
      refine Or.inr ⟨by rw [h], ?_⟩
      intro e he hk
      exact hnone e.2 (by rw [← show e.1 = o from hk]; exact he)
  · intro w hw x
    dsimp only
    rw [ZoneMap.mem_insert_iff]
    constructor
    · rintro (h | ⟨_, h⟩)
      · exact ZoneMap.value_unique _ o x w h hw
      · exact absurd rfl (h (o, w) hw)
    · intro h
      rw [h]
      exact Or.inl hw

/-- Witness of C3 (amended): on the empty field, which binds nothing, `Extend(1, 3)`
binds 1 to 3 only; on the field binding 1 to 2 it binds 1 to 2 only. -/
theorem AbstractField_Extend_binds_witness :
    (∀ x, (AbstractField.empty.Extend 1 3).Binds 1 x ↔ x = 3) ∧
    (∀ x, ((AbstractField.single 1 2).Extend 1 3).Binds 1 x ↔ x = 2) :=
  ⟨(AbstractField_Extend_binds AbstractField.empty 1 3).1
     (fun w h => absurd h (List.not_mem_nil (1, w))),
   (AbstractField_Extend_binds (AbstractField.single 1 2) 1 3).2 2 (by decide)⟩

/-- C4: `a.Merge(b)` binds `o` to `v` exactly when both `a` and `b` bind `o` to the
same node `v`; so no binding of the result is missing from, or different in,
either input. -/
theorem AbstractField_Merge_binds_iff (a b : AbstractField) (o v : Node) :
    (a.Merge b).Binds o v ↔ a.Binds o v ∧ b.Binds o v := by
  unfold AbstractField.Merge
  split_ifs with heq
  · have h := (AbstractField.Equals_iff_entries a b).1 heq
    unfold AbstractField.Binds
    rw [← h]
    exact (and_self_iff).symm
  · unfold AbstractField.Binds
    have hl : a.info_for_node_.entries.Pairwise (fun x y => x.1 ≠ y.1) :=
      a.info_for_node_.ordered.imp (fun h => ne_of_lt h)
    rw [AbstractField.mem_foldl_MergeStep b _ AbstractField.empty hl
      (fun c hc => absurd hc (List.not_mem_nil c)) (o, v)]
    dsimp only
    rw [ZoneMap.find_eq_some_iff]
    constructor
    · rintro (h | h)
      · exact absurd h (List.not_mem_nil _)
      · exact h
    · exact Or.inr

/-- C7: `a.Equals(b)` is true exactly when `a` and `b` hold the same bindings
(a field equals itself, which covers pointer-equal fields); it is reflexive,
symmetric and transitive. -/
theorem AbstractField_Equals_iff_same_bindings (a b c : AbstractField) :
    (a.Equals b = true ↔ ∀ o v, a.Binds o v ↔ b.Binds o v) ∧
    a.Equals a = true ∧
    (a.Equals b = true → b.Equals a = true) ∧
    (a.Equals b = true → b.Equals c = true → a.Equals c = true) := by
  simp only [AbstractField.Equals_iff_entries]
  refine ⟨?_, trivial, Eq.symm, Eq.trans⟩
  unfold AbstractField.Binds
  constructor
  · intro h o v
    rw [h]
  · intro h
    exact ZoneMap.entries_eq_of_mem_iff _ _ (fun x => h x.1 x.2)

/-- C8: for every object `o'` other than `o`, `f.Extend(o, v)` binds `o'` to
exactly what `f` binds it to: no other binding is added, removed or changed. -/
theorem AbstractField_Extend_frame (f : AbstractField) (o v o' : Node) (h : o' ≠ o) :
    ∀ v', (f.Extend o v).Binds o' v' ↔ f.Binds o' v' := by
  intro v'
  unfold AbstractField.Binds AbstractField.Extend
  dsimp only
  rw [ZoneMap.mem_insert_iff]
  constructor
  · rintro (h1 | ⟨h1, _⟩)
    · exact h1
    · exact absurd (congrArg Prod.fst h1) h
  · exact Or.inl

/-- Witness of C8: extending the field that binds 1 to 2 with the pair (3, 4)
leaves the bindings of object 1 as they were. -/
theorem AbstractField_Extend_frame_witness :
    (1 : Node) ≠ 3 ∧
      ∀ v', ((AbstractField.single 1 2).Extend 3 4).Binds 1 v' ↔
        (AbstractField.single 1 2).Binds 1 v' :=
  ⟨by decide, AbstractField_Extend_frame (AbstractField.single 1 2) 3 4 1 (by decide)⟩

/-! ## Theorems: hashing of the access descriptors -/

/-- C9: whatever `base::hash_combine` computes, `a == b` implies
`hash_value(a) = hash_value(b)` on `FieldAccess`, and descriptors with the same
`base_is_tagged`, `offset` and `machine_type` have the same hash: the hash does
not depend on `write_barrier_kind`, `type` or `name`. -/
theorem FieldAccess_hash_value_consistent
    (hash_combine : BaseTaggedness → Int → MachineType → Nat) (a b : FieldAccess) :
    (FieldAccess.operator_eq a b = true →
      FieldAccess.hash_value hash_combine a = FieldAccess.hash_value hash_combine b) ∧
    (a.base_is_tagged = b.base_is_tagged → a.offset = b.offset →
      a.machine_type = b.machine_type →
      FieldAccess.hash_value hash_combine a = FieldAccess.hash_value hash_combine b) := by
  have key : a.base_is_tagged = b.base_is_tagged → a.offset = b.offset →
      a.machine_type = b.machine_type →
      FieldAccess.hash_value hash_combine a = FieldAccess.hash_value hash_combine b := by
    intro h1 h2 h3
    unfold FieldAccess.hash_value
    rw [h1, h2, h3]
  refine ⟨?_, key⟩
  intro h
  simp only [FieldAccess.operator_eq, Bool.and_eq_true, decide_eq_true_iff] at h
  exact key h.1.1 h.1.2 h.2

/-- Witness of C9: two descriptors of the tagged field at offset 8 that differ in
name, type and write barrier kind are equal and hash alike. -/
theorem FieldAccess_hash_value_consistent_witness :
    FieldAccess.hash_value (fun t o m => (if t = .kTaggedBase then 1 else 0) + o.toNat +
        m.representation + m.semantic)
      { base_is_tagged := .kTaggedBase, offset := 8, name := none, type := 0,
        machine_type := ⟨7, 1⟩, write_barrier_kind := 0 } =
    FieldAccess.hash_value (fun t o m => (if t = .kTaggedBase then 1 else 0) + o.toNat +
        m.representation + m.semantic)
      { base_is_tagged := .kTaggedBase, offset := 8, name := some 5, type := 9,
        machine_type := ⟨7, 1⟩, write_barrier_kind := 3 } :=
  (FieldAccess_hash_value_consistent _ _ _).1 (by decide)

/-- C10: whatever `base::hash_combine` computes, `a == b` implies
`hash_value(a) = hash_value(b)` on `ElementAccess`, and descriptors with the same
`base_is_tagged`, `header_size` and `machine_type` have the same hash. -/
theorem ElementAccess_hash_value_consistent
    (hash_combine : BaseTaggedness → Int → MachineType → Nat) (a b : ElementAccess) :
    (ElementAccess.operator_eq a b = true →
      ElementAccess.hash_value hash_combine a = ElementAccess.hash_value hash_combine b) ∧
    (a.base_is_tagged = b.base_is_tagged → a.header_size = b.header_size →
      a.machine_type = b.machine_type →
      ElementAccess.hash_value hash_combine a = ElementAccess.hash_value hash_combine b) := by
  have key : a.base_is_tagged = b.base_is_tagged → a.header_size = b.header_size →
      a.machine_type = b.machine_type →
      ElementAccess.hash_value hash_combine a = ElementAccess.hash_value hash_combine b := by
    intro h1 h2 h3
    unfold ElementAccess.hash_value
    rw [h1, h2, h3]
  refine ⟨?_, key⟩
  intro h
  simp only [ElementAccess.operator_eq, Bool.and_eq_true, decide_eq_true_iff] at h
  exact key h.1.1 h.1.2 h.2

/-- Witness of C10: two descriptors with header size 16 that differ in type and
write barrier kind are equal and hash alike. -/
theorem ElementAccess_hash_value_consistent_witness :
    ElementAccess.hash_value (fun t o m => (if t = .kTaggedBase then 1 else 0) + o.toNat +
        m.representation + m.semantic)
      { base_is_tagged := .kTaggedBase, header_size := 16, type := 0,
        machine_type := ⟨7, 1⟩, write_barrier_kind := 0 } =
    ElementAccess.hash_value (fun t o m => (if t = .kTaggedBase then 1 else 0) + o.toNat +
        m.representation + m.semantic)
      { base_is_tagged := .kTaggedBase, header_size := 16, type := 9,
        machine_type := ⟨7, 1⟩, write_barrier_kind := 3 } :=
  (ElementAccess_hash_value_consistent _ _ _).1 (by decide)

/-! ## Theorems: abstract state -/

theorem AbstractElements.Extend_empty (object index value : Node) :
    AbstractElements.empty.Extend object index value =
      some (AbstractElements.single object index value) := by
  rw [AbstractElements.Extend_of_lt _ _ _ _ (by decide)]
  rfl

theorem AbstractElements.ExtendAll_single (object index value : Node) (ts : List Element) :
    (AbstractElements.single object index value).ExtendAll ts =
      AbstractElements.empty.ExtendAll
        ({ object := object, index := index, value := value } :: ts) := by
  simp [AbstractElements.ExtendAll, AbstractElements.Extend_empty]

theorem AbstractElements.records_card_le (r : AbstractElements) :
    r.records.card ≤ kMaxTrackedElements := by
  have h := Finset.card_le_univ r.records
  simpa using h

theorem AbstractState.construct_fields (uninitialised : Fin kMaxTrackedFields → Option AbstractField)
    (i : Fin kMaxTrackedFields) : (AbstractState.construct uninitialised).fields_ i = none := by
  have key : ∀ (l : List (Fin kMaxTrackedFields)) (fs : Fin kMaxTrackedFields → Option AbstractField),
      (i ∈ l ∨ fs i = none) →
      (l.foldl (fun fields j => Function.update fields j none) fs) i = none := by
    intro l
    induction l with
    | nil =>
      intro fs h
      rcases h with h | h
      · exact absurd h (List.not_mem_nil i)
      · exact h
    | cons j rest ih =>
      intro fs h
      rw [List.foldl_cons]
      apply ih
      by_cases hij : i = j
      · right
        rw [hij, Function.update_same]
      · rcases h with h | h
        · rcases List.mem_cons.1 h with h | h
          · exact absurd h hij
          · exact Or.inl h
        · right
          rw [Function.update_noteq hij]
          exact h
  exact key _ _ (Or.inl (List.mem_finRange i))

/-- C11: every `AbstractState` has at most `kMaxTrackedFields = 32` present field
slots; and every ring obtained from either constructor of `AbstractElements` by
any sequence of `Extend` calls exists and holds at most `kMaxTrackedElements = 8`
records. -/
theorem bounded_state (S : AbstractState) (object index value : Node) (ts : List Element) :
    S.presentFields.card ≤ 32 ∧
    (∃ r : AbstractElements, AbstractElements.empty.ExtendAll ts = some r ∧
      r.records.card ≤ 8) ∧
    (∃ r : AbstractElements, (AbstractElements.single object index value).ExtendAll ts = some r ∧
      r.records.card ≤ 8) := by
  refine ⟨?_, ?_, ?_⟩
  · have h := Finset.card_le_univ S.presentFields
    simpa using h
  · obtain ⟨r, hr, _⟩ := AbstractElements.ExtendAll_empty ts
    exact ⟨r, hr, r.records_card_le⟩
  · obtain ⟨r, hr, _⟩ := AbstractElements.ExtendAll_empty
      ({ object := object, index := index, value := value } :: ts)
    exact ⟨r, (AbstractElements.ExtendAll_single object index value ts).trans hr,
      r.records_card_le⟩

/-- C12: a default-constructed `AbstractState`, whatever the array held before
the constructor ran, and so the `empty_state` sentinel, has every field slot
absent, no present field slot and no elements; a default-constructed
`AbstractElements` has all 8 slots empty (null object, index and value) and
cursor 0. -/
theorem empty_state_tracks_nothing
    (uninitialised : Fin kMaxTrackedFields → Option AbstractField) :
    (∀ i, (AbstractState.construct uninitialised).fields_ i = none) ∧
    (AbstractState.construct uninitialised).elements_ = none ∧
    (∀ i, empty_state.fields_ i = none) ∧ empty_state.elements_ = none ∧
    empty_state.presentFields = ∅ ∧
    (∀ j, AbstractElements.empty.elements_ j =
      { object := nullptr, index := nullptr, value := nullptr }) ∧
    AbstractElements.empty.records = ∅ ∧
    AbstractElements.empty.next_index_ = 0 := by
  refine ⟨AbstractState.construct_fields uninitialised, rfl,
    AbstractState.construct_fields _, rfl, ?_, fun _ => rfl, ?_, rfl⟩
  · unfold AbstractState.presentFields
    rw [Finset.filter_eq_empty_iff]
    intro i _
    simp [empty_state, AbstractState.construct_fields]
  · unfold AbstractElements.records
    rw [Finset.filter_eq_empty_iff]
    intro j _
    simp [AbstractElements.empty]

/-! ## Theorems: fresh fields and the algebra of `Merge` -/

/-- The entries of `a.Merge(b)` are the entries common to `a` and `b`. -/
theorem AbstractField.mem_Merge_iff (a b : AbstractField) (x : Node × Node) :
    x ∈ (a.Merge b).info_for_node_.entries ↔
      x ∈ a.info_for_node_.entries ∧ x ∈ b.info_for_node_.entries := by
  unfold AbstractField.Merge
  split_ifs with heq
  · rw [← (AbstractField.Equals_iff_entries a b).1 heq]
    exact (and_self_iff).symm
  · have hl : a.info_for_node_.entries.Pairwise (fun x y => x.1 ≠ y.1) :=
      a.info_for_node_.ordered.imp (fun h => ne_of_lt h)
    rw [AbstractField.mem_foldl_MergeStep b _ AbstractField.empty hl
      (fun c hc => absurd hc (List.not_mem_nil c)) x, ZoneMap.find_eq_some_iff]
    constructor
    · rintro (h | h)
      · exact absurd h (List.not_mem_nil _)
      · exact h
    · exact Or.inr

/-- C19: the field built by `AbstractField(object, value, zone)` binds `object` to
`value` and holds no other binding, and it `Equals` the result of
`Extend(object, value)` on the empty field. -/
theorem AbstractField_single_spec (object value : Node) :
    (∀ o v, (AbstractField.single object value).Binds o v ↔ (o = object ∧ v = value)) ∧
    (AbstractField.single object value).info_for_node_.entries = [(object, value)] ∧
    (AbstractField.single object value).Equals
      (AbstractField.empty.Extend object value) = true := by
  refine ⟨?_, rfl, ?_⟩
  · intro o v
    show (o, v) ∈ [(object, value)] ↔ _
    simp
  · rw [AbstractField.Equals_iff_entries]
    rfl

/-- C20: `Merge` is commutative up to `Equals`: `a.Merge(b).Equals(b.Merge(a))` is
true for all fields `a` and `b`. -/
theorem AbstractField_Merge_comm (a b : AbstractField) :
    (a.Merge b).Equals (b.Merge a) = true := by
  rw [AbstractField.Equals_iff_entries]
  apply ZoneMap.entries_eq_of_mem_iff
  intro x
  rw [AbstractField.mem_Merge_iff, AbstractField.mem_Merge_iff]
  exact and_comm

/-! ## Theorems: operators -/

/-- C16: for every access descriptor, array type and transition kind, the
operators built by `LoadField`, `LoadElement` and `LoadBuffer` carry `kNoWrite`,
and those built by `StoreField`, `StoreElement`, `StoreBuffer` and
`TransitionElementsKind` do not. -/
theorem write_classification (fa : FieldAccess) (ea : ElementAccess) (ba : BufferAccess)
    (tr : ElementsTransition) :
    (SimplifiedOperatorBuilder.LoadField fa).HasProperty .kNoWrite = true ∧
    (SimplifiedOperatorBuilder.LoadElement ea).HasProperty .kNoWrite = true ∧
    (SimplifiedOperatorBuilder.LoadBuffer ba).HasProperty .kNoWrite = true ∧
    (SimplifiedOperatorBuilder.StoreField fa).HasProperty .kNoWrite = false ∧
    (SimplifiedOperatorBuilder.StoreElement ea).HasProperty .kNoWrite = false ∧
    (SimplifiedOperatorBuilder.StoreBuffer ba).HasProperty .kNoWrite = false ∧
    (SimplifiedOperatorBuilder.TransitionElementsKind tr).HasProperty .kNoWrite = false := by
  refine ⟨?_, ?_, ?_, ?_, ?_, ?_, ?_⟩
  · simp [Operator.HasProperty, SimplifiedOperatorBuilder.LoadField, ACCESS]
  · simp [Operator.HasProperty, SimplifiedOperatorBuilder.LoadElement, ACCESS]
  · obtain ⟨ty⟩ := ba
    cases ty <;>
      simp [Operator.HasProperty, SimplifiedOperatorBuilder.LoadBuffer,
        BufferAccess.external_array_type, SimplifiedOperatorGlobalCache.kLoadBuffer]
  · simp [Operator.HasProperty, SimplifiedOperatorBuilder.StoreField, ACCESS]
  · simp [Operator.HasProperty, SimplifiedOperatorBuilder.StoreElement, ACCESS]
  · obtain ⟨ty⟩ := ba
    cases ty <;>
      simp [Operator.HasProperty, SimplifiedOperatorBuilder.StoreBuffer,
        BufferAccess.external_array_type, SimplifiedOperatorGlobalCache.kStoreBuffer]
  · simp [Operator.HasProperty, SimplifiedOperatorBuilder.TransitionElementsKind]

/-- C17: for every access descriptor, `LoadField` has 1 value input, `StoreField`
2, `LoadElement` 2 and `StoreElement` 3; each has one effect input, one control
input and one effect output; the loads have one value output, the stores none. -/
theorem access_operator_shape (fa : FieldAccess) (ea : ElementAccess) :
    ((SimplifiedOperatorBuilder.LoadField fa).value_in = 1 ∧
      (SimplifiedOperatorBuilder.StoreField fa).value_in = 2 ∧
      (SimplifiedOperatorBuilder.LoadElement ea).value_in = 2 ∧
      (SimplifiedOperatorBuilder.StoreElement ea).value_in = 3) ∧
    ((SimplifiedOperatorBuilder.LoadField fa).effect_in = 1 ∧
      (SimplifiedOperatorBuilder.StoreField fa).effect_in = 1 ∧
      (SimplifiedOperatorBuilder.LoadElement ea).effect_in = 1 ∧
      (SimplifiedOperatorBuilder.StoreElement ea).effect_in = 1) ∧
    ((SimplifiedOperatorBuilder.LoadField fa).control_in = 1 ∧
      (SimplifiedOperatorBuilder.StoreField fa).control_in = 1 ∧
      (SimplifiedOperatorBuilder.LoadElement ea).control_in = 1 ∧
      (SimplifiedOperatorBuilder.StoreElement ea).control_in = 1) ∧
    ((SimplifiedOperatorBuilder.LoadField fa).effect_out = 1 ∧
      (SimplifiedOperatorBuilder.StoreField fa).effect_out = 1 ∧
      (SimplifiedOperatorBuilder.LoadElement ea).effect_out = 1 ∧
      (SimplifiedOperatorBuilder.StoreElement ea).effect_out = 1) ∧
    ((SimplifiedOperatorBuilder.LoadField fa).value_out = 1 ∧
      (SimplifiedOperatorBuilder.LoadElement ea).value_out = 1 ∧
      (SimplifiedOperatorBuilder.StoreField fa).value_out = 0 ∧
      (SimplifiedOperatorBuilder.StoreElement ea).value_out = 0) := by
  refine ⟨⟨rfl, rfl, rfl, rfl⟩, ⟨rfl, rfl, rfl, rfl⟩, ⟨rfl, rfl, rfl, rfl⟩,
    ⟨rfl, rfl, rfl, rfl⟩, ⟨rfl, rfl, rfl, rfl⟩⟩

/-- C18 (as stated, refuted): `INT_MAX = 2147483647` is a positive `int`, and
`CheckMaps(INT_MAX)` yields no operator with `1 + INT_MAX` value inputs: the
`int` addition `1 + map_input_count` overflows. -/
theorem CheckMaps_overflow :
    (0 : Int) < 2147483647 ∧ (2147483647 : Int) ≤ kMaxInt ∧
      (SimplifiedOperatorBuilder.CheckMaps 2147483647).isNone = true := by
  decide

/-- C18 (amended): for every `map_input_count` with `0 < map_input_count < INT_MAX`,
`CheckMaps(map_input_count)` returns an operator with opcode `kCheckMaps`,
`1 + map_input_count` value inputs, one effect input, one control input, no value
output, one effect output, no control output, properties `kNoThrow` and
`kNoWrite` and no other, and parameter `map_input_count`. -/
theorem CheckMaps_spec (map_input_count : Int) (hpos : 0 < map_input_count)
    (hmax : map_input_count < kMaxInt) :
    ∃ op : Operator1 Int, SimplifiedOperatorBuilder.CheckMaps map_input_count = some op ∧
      op.opcode = .kCheckMaps ∧ (op.value_in : Int) = 1 + map_input_count ∧
      op.effect_in = 1 ∧ op.control_in = 1 ∧
      op.value_out = 0 ∧ op.effect_out = 1 ∧ op.control_out = 0 ∧
      op.HasProperty .kNoThrow = true ∧ op.HasProperty .kNoWrite = true ∧
      op.properties = {Property.kNoThrow, Property.kNoWrite} ∧
      op.parameter = map_input_count := by
  have h2 : 1 + map_input_count ≤ kMaxInt := by omega
  refine ⟨{ opcode := .kCheckMaps
            properties := {Property.kNoThrow} ∪ {Property.kNoWrite}
            mnemonic := "CheckMaps"
            value_in := (1 + map_input_count).toNat, effect_in := 1, control_in := 1
            value_out := 0, effect_out := 1, control_out := 0
            parameter := map_input_count },
    ?_, rfl, ?_, rfl, rfl, rfl, rfl, rfl, ?_, ?_, ?_, rfl⟩
  · unfold SimplifiedOperatorBuilder.CheckMaps
    rw [if_pos hpos]
    exact if_pos h2
  · exact Int.toNat_of_nonneg (by omega)
  · simp [Operator.HasProperty]
  · simp [Operator.HasProperty]
  · rfl

/-- Witness of C18 (amended): `CheckMaps(2)` has 3 value inputs and parameter 2. -/
theorem CheckMaps_spec_witness :
    ∃ op : Operator1 Int, SimplifiedOperatorBuilder.CheckMaps 2 = some op ∧
      op.opcode = .kCheckMaps ∧ (op.value_in : Int) = 1 + 2 ∧
      op.effect_in = 1 ∧ op.control_in = 1 ∧
      op.value_out = 0 ∧ op.effect_out = 1 ∧ op.control_out = 0 ∧
      op.HasProperty .kNoThrow = true ∧ op.HasProperty .kNoWrite = true ∧
      op.properties = {Property.kNoThrow, Property.kNoWrite} ∧
      op.parameter = 2 :=
  CheckMaps_spec 2 (by decide) (by decide)

/-! ## Theorems: state table and reducer -/

theorem AbstractStateForEffectNodes.Get_Set (id : Node → Nat)
    (t : AbstractStateForEffectNodes) (node : Node) (state : AbstractState) :
    (t.Set id node state).Get id node = some state := by
  unfold AbstractStateForEffectNodes.Get AbstractStateForEffectNodes.Set
  dsimp only
  rw [List.getElem?_set_self]
  split_ifs with h
  · exact h
  · rw [List.length_append, List.length_replicate]
    omega

theorem AbstractField.Equals_self (f : AbstractField) : f.Equals f = true :=
  (AbstractField.Equals_iff_entries f f).2 rfl

theorem fieldSlotEquals_refl (f : Option AbstractField) : fieldSlotEquals f f = true := by
  cases f with
  | none => rfl
  | some a => exact AbstractField.Equals_self a

theorem AbstractState.Equals_refl (S : AbstractState) : S.Equals S = true := by
  unfold AbstractState.Equals
  rw [Bool.and_eq_true]
  constructor
  · cases h : S.elements_ with
    | none => rfl
    | some a => simp [AbstractElements.Equals]
  · rw [List.all_eq_true]
    intro i _
    exact fieldSlotEquals_refl _

theorem AbstractState.fieldSlotEquals_of_Equals (S T : AbstractState)
    (h : S.Equals T = true) (i : Fin kMaxTrackedFields) :
    fieldSlotEquals (S.fields_ i) (T.fields_ i) = true := by
  unfold AbstractState.Equals at h
  rw [Bool.and_eq_true, List.all_eq_true] at h
  exact h.2 i (List.mem_finRange i)

theorem AbstractState.LookupField_of_Equals (S T : AbstractState) (h : S.Equals T = true)
    (object : Node) (index : Int) :
    S.LookupField object index = T.LookupField object index := by
  unfold AbstractState.LookupField
  cases hs : fieldSlot index with
  | none => rfl
  | some i =>
    have hi := AbstractState.fieldSlotEquals_of_Equals S T h i
    dsimp only
    cases hS : S.fields_ i with
    | none =>
      cases hT : T.fields_ i with
      | none => rfl
      | some b => rw [hS, hT] at hi; exact absurd hi (by simp [fieldSlotEquals])
    | some a =>
      cases hT : T.fields_ i with
      | none => rw [hS, hT] at hi; exact absurd hi (by simp [fieldSlotEquals])
      | some b =>
        rw [hS, hT] at hi
        have he : a.info_for_node_.entries = b.info_for_node_.entries :=
          (AbstractField.Equals_iff_entries a b).1 hi
        dsimp only
        unfold AbstractField.Lookup ZoneMap.find
        rw [he]

theorem AbstractState.fields_Kill_AddField (S : AbstractState) (object value : Node)
    (index : Int) (k : Fin kMaxTrackedFields) (hk : fieldSlot index = some k) :
    ((S.KillField_for_aliasing index).AddField object index value).fields_ k =
      some (AbstractField.single object value) := by
  unfold AbstractState.AddField AbstractState.KillField_for_aliasing
  rw [hk]
  dsimp only
  rw [Function.update_same, Function.update_same]

theorem fieldSlot_of_tracked (index : Int) (h0 : 0 ≤ index) (h1 : index < 32) :
    ∃ k, fieldSlot index = some k := by
  unfold fieldSlot
  exact ⟨_, dif_pos ⟨h0, h1⟩⟩

theorem LoadElimination.UpdateState_recorded (id : Node → Nat) (le : LoadElimination)
    (node : Node) (state : AbstractState) :
    ∃ S, (le.UpdateState id node state).2.node_states_.Get id node = some S ∧
      S.Equals state = true := by
  unfold LoadElimination.UpdateState
  cases hg : le.node_states_.Get id node with
  | none =>
    exact ⟨state, AbstractStateForEffectNodes.Get_Set _ _ _ _, AbstractState.Equals_refl _⟩
  | some original =>
    dsimp only
    split_ifs with he
    · exact ⟨original, hg, he⟩
    · exact ⟨state, AbstractStateForEffectNodes.Get_Set _ _ _ _, AbstractState.Equals_refl _⟩

theorem LoadElimination.UpdateState_ne_Replace (id : Node → Nat) (le : LoadElimination)
    (node : Node) (state : AbstractState) (v : Node) :
    (le.UpdateState id node state).1 ≠ .Replace v := by
  unfold LoadElimination.UpdateState
  cases hg : le.node_states_.Get id node with
  | none => simp
  | some original =>
    dsimp only
    split_ifs <;> simp

/-- C15: `UpdateState(node, S_new)` returns `NoChange`, leaving the table as it
is, exactly when some `S_old` is recorded for `node` with `S_old.Equals(S_new)`;
in every other case it returns `Changed(node)` and a following `Get(node)`
returns `S_new`. -/
theorem UpdateState_spec (id : Node → Nat) (le : LoadElimination) (node : Node)
    (S_new : AbstractState) :
    ((le.UpdateState id node S_new).1 = .NoChange ↔
      ∃ S_old, le.node_states_.Get id node = some S_old ∧ S_old.Equals S_new = true) ∧
    ((∃ S_old, le.node_states_.Get id node = some S_old ∧ S_old.Equals S_new = true) →
      le.UpdateState id node S_new = (.NoChange, le)) ∧
    ((¬ ∃ S_old, le.node_states_.Get id node = some S_old ∧ S_old.Equals S_new = true) →
      (le.UpdateState id node S_new).1 = .Changed node ∧
      (le.UpdateState id node S_new).2.node_states_.Get id node = some S_new) := by
  unfold LoadElimination.UpdateState
  cases hg : le.node_states_.Get id node with
  | none =>
    refine ⟨?_, ?_, ?_⟩
    · simp
    · rintro ⟨S_old, h, _⟩
      exact absurd h (by simp)
    · intro _
      exact ⟨rfl, AbstractStateForEffectNodes.Get_Set _ _ _ _⟩
  | some original =>
    dsimp only
    by_cases he : original.Equals S_new = true
    · rw [if_pos he]
      refine ⟨?_, ?_, ?_⟩
      · simp [he]
      · intro _
        rfl
      · intro h
        exact absurd ⟨original, rfl, he⟩ h
    · rw [if_neg he]
      refine ⟨?_, ?_, ?_⟩
      · simp [he]
      · rintro ⟨S_old, h, h2⟩
        rw [← Option.some.inj h] at h2
        exact absurd h2 he
      · intro _
        exact ⟨rfl, AbstractStateForEffectNodes.Get_Set _ _ _ _⟩

/-- Witness of C15: with the empty state recorded for node 1, updating node 1 with
the empty state is `NoChange`; updating node 3, which has no state, records it. -/
theorem UpdateState_spec_witness :
    LoadElimination.UpdateState (fun n => n) { node_states_ := ⟨[none, some empty_state]⟩ } 1
        empty_state =
      (.NoChange, { node_states_ := ⟨[none, some empty_state]⟩ }) ∧
    (LoadElimination.UpdateState (fun n => n) { node_states_ := ⟨[none, some empty_state]⟩ } 3
        empty_state).1 = .Changed 3 :=
  ⟨(UpdateState_spec (fun n => n) { node_states_ := ⟨[none, some empty_state]⟩ } 1
      empty_state).2.1 ⟨empty_state, rfl, AbstractState.Equals_refl _⟩,
   ((UpdateState_spec (fun n => n) { node_states_ := ⟨[none, some empty_state]⟩ } 3
      empty_state).2.2
      (by rintro ⟨S_old, h, _⟩; simp [AbstractStateForEffectNodes.Get] at h)).1⟩

/-- C14: for a `StoreField(object, value)` node on a tracked slot `i` that is not
redundant, with `S_in` the state of its effect input and
`S_out = S_in.KillField_for_aliasing(i).AddField(object, i, value)`: the
reduction is that of `UpdateState(node, S_out)`; slot `i` of `S_out` is a field
whose only binding is `object -> value`; no other object is found in it; and a
following `LoadField(a, i)` with `a` another node than `object`, whose effect
input is the store, is not replaced. -/
theorem ReduceStoreField_spec (id : Node → Nat) (FieldIndexOf : FieldAccess → Int)
    (le : LoadElimination) (node object value effect : Node) (access : FieldAccess)
    (S_in : AbstractState) (hin : le.node_states_.Get id effect = some S_in)
    (h0 : 0 ≤ FieldIndexOf access) (h1 : FieldIndexOf access < 32)
    (hnr : S_in.LookupField object (FieldIndexOf access) ≠ some value) :
    le.ReduceStoreField id FieldIndexOf node object value effect access =
      le.UpdateState id node
        ((S_in.KillField_for_aliasing (FieldIndexOf access)).AddField object
          (FieldIndexOf access) value) ∧
    (∃ k f, fieldSlot (FieldIndexOf access) = some k ∧
      ((S_in.KillField_for_aliasing (FieldIndexOf access)).AddField object
        (FieldIndexOf access) value).fields_ k = some f ∧
      ∀ o v, f.Binds o v ↔ (o = object ∧ v = value)) ∧
    (∀ a, a ≠ object →
      ((S_in.KillField_for_aliasing (FieldIndexOf access)).AddField object
        (FieldIndexOf access) value).LookupField a (FieldIndexOf access) = none) ∧
    (∀ (later a : Node) (access2 : FieldAccess), a ≠ object →
      FieldIndexOf access2 = FieldIndexOf access → ∀ v,
        (LoadElimination.ReduceLoadField id FieldIndexOf
          (le.ReduceStoreField id FieldIndexOf node object value effect access).2
          later a node access2).1 ≠ .Replace v) := by
  obtain ⟨k, hk⟩ := fieldSlot_of_tracked _ h0 h1
  have hfield := AbstractState.fields_Kill_AddField S_in object value _ k hk
  have hred : le.ReduceStoreField id FieldIndexOf node object value effect access =
      le.UpdateState id node
        ((S_in.KillField_for_aliasing (FieldIndexOf access)).AddField object
          (FieldIndexOf access) value) := by
    unfold LoadElimination.ReduceStoreField
    rw [hin]
    dsimp only
    rw [if_neg (fun h => hnr h.2)]
  have hother : ∀ a, a ≠ object →
      ((S_in.KillField_for_aliasing (FieldIndexOf access)).AddField object
        (FieldIndexOf access) value).LookupField a (FieldIndexOf access) = none := by
    intro a ha
    unfold AbstractState.LookupField
    rw [hk]
    dsimp only
    rw [hfield]
    dsimp only
    unfold AbstractField.Lookup AbstractField.single ZoneMap.find ZoneMap.insert ZoneMap.empty
    simp [entriesInsert, entriesFind, Ne.symm ha]
  refine ⟨hred, ⟨k, _, hk, hfield, ?_⟩, hother, ?_⟩
  · intro o v
    show (o, v) ∈ [(object, value)] ↔ _
    simp
  · intro later a access2 ha hacc v
    rw [hred]
    obtain ⟨S, hS, hEq⟩ := LoadElimination.UpdateState_recorded id le node
      ((S_in.KillField_for_aliasing (FieldIndexOf access)).AddField object
        (FieldIndexOf access) value)
    have hnone : S.LookupField a (FieldIndexOf access) = none := by
      rw [AbstractState.LookupField_of_Equals S _ hEq]
      exact hother a ha
    unfold LoadElimination.ReduceLoadField
    rw [hS]
    dsimp only
    rw [hacc, if_pos h0, hnone]
    exact LoadElimination.UpdateState_ne_Replace _ _ _ _ v

/-- Witness of C14: node 1 carries a state whose slot 4 binds object 8 to node 5,
so a load of field 4 of object 8 there is replaced by 5, and it would still be
found after `AddField(7, 4, 9)` alone. The store node 2 writes value 9 to field 4
of object 7: its reduction is that of `UpdateState` with the killed and extended
state, in which slot 4 no longer holds the binding of object 8 (nor of any other
object than 7), and a load of field 4 of object 8 after the store is not
replaced, neither by 5 nor by any other node. -/
theorem ReduceStoreField_spec_witness :
    (empty_state.AddField 8 4 5).LookupField 8 4 = some 5 ∧
    (LoadElimination.ReduceLoadField (fun n => n) (fun a => a.offset)
      { node_states_ := ⟨[none, some (empty_state.AddField 8 4 5)]⟩ } 3 8 1
      { base_is_tagged := .kTaggedBase, offset := 4, name := none, type := 0,
        machine_type := ⟨7, 1⟩, write_barrier_kind := 0 }).1 = .Replace 5 ∧
    ((empty_state.AddField 8 4 5).AddField 7 4 9).LookupField 8 4 = some 5 ∧
    LoadElimination.ReduceStoreField (fun n => n) (fun a => a.offset)
        { node_states_ := ⟨[none, some (empty_state.AddField 8 4 5)]⟩ } 2 7 9 1
        { base_is_tagged := .kTaggedBase, offset := 4, name := none, type := 0,
          machine_type := ⟨7, 1⟩, write_barrier_kind := 0 } =
      LoadElimination.UpdateState (fun n => n)
        { node_states_ := ⟨[none, some (empty_state.AddField 8 4 5)]⟩ } 2
        (((empty_state.AddField 8 4 5).KillField_for_aliasing 4).AddField 7 4 9) ∧
    (∀ a, a ≠ 7 →
      (((empty_state.AddField 8 4 5).KillField_for_aliasing 4).AddField 7 4 9).LookupField
        a 4 = none) ∧
    (((empty_state.AddField 8 4 5).KillField_for_aliasing 4).AddField 7 4 9).LookupField
      8 4 = none ∧
    (∀ v, (LoadElimination.ReduceLoadField (fun n => n) (fun a => a.offset)
      (LoadElimination.ReduceStoreField (fun n => n) (fun a => a.offset)
        { node_states_ := ⟨[none, some (empty_state.AddField 8 4 5)]⟩ } 2 7 9 1
        { base_is_tagged := .kTaggedBase, offset := 4, name := none, type := 0,
          machine_type := ⟨7, 1⟩, write_barrier_kind := 0 }).2
      3 8 2
      { base_is_tagged := .kTaggedBase, offset := 4, name := none, type := 0,
        machine_type := ⟨7, 1⟩, write_barrier_kind := 0 }).1 ≠ .Replace v) :=
  have h := ReduceStoreField_spec (fun n => n) (fun a => a.offset)
    { node_states_ := ⟨[none, some (empty_state.AddField 8 4 5)]⟩ } 2 7 9 1
    { base_is_tagged := .kTaggedBase, offset := 4, name := none, type := 0,
      machine_type := ⟨7, 1⟩, write_barrier_kind := 0 } (empty_state.AddField 8 4 5) rfl
    (by decide) (by decide) (by decide)
  ⟨by decide, by decide, by decide, h.1, h.2.2.1, h.2.2.1 8 (by decide),
    h.2.2.2 3 8 _ (by decide) rfl⟩

/-! ## Theorems: associativity and emptiness of `Merge` -/

/-- C21: `Merge` is associative up to `Equals`:
`a.Merge(b).Merge(c).Equals(a.Merge(b.Merge(c)))` is true for all fields, so
folding `Merge` over the input states of an effect phi gives the same bindings
in any grouping. -/
theorem AbstractField_Merge_assoc (a b c : AbstractField) :
    ((a.Merge b).Merge c).Equals (a.Merge (b.Merge c)) = true := by
  rw [AbstractField.Equals_iff_entries]
  apply ZoneMap.entries_eq_of_mem_iff
  intro x
  rw [AbstractField.mem_Merge_iff, AbstractField.mem_Merge_iff, AbstractField.mem_Merge_iff,
    AbstractField.mem_Merge_iff]
  exact and_assoc

/-- C24: `Merge` returns a field (its result type has no null value), and that
field has zero bindings exactly when no object is bound to the same value in
both inputs; in particular two non-empty fields that bind no common object
merge to the empty field, and so do the fields `{1 -> 2}` and `{3 -> 4}`. -/
theorem AbstractField_Merge_empty_iff (a b : AbstractField) :
    ((a.Merge b).info_for_node_.entries = [] ↔
      ¬ ∃ o v, a.Binds o v ∧ b.Binds o v) ∧
    (a.info_for_node_.entries ≠ [] → b.info_for_node_.entries ≠ [] →
      (∀ o v w, a.Binds o v → ¬ b.Binds o w) →
      a.Merge b = AbstractField.empty) ∧
    (AbstractField.single 1 2).Merge (AbstractField.single 3 4) = AbstractField.empty := by
  have hiff : (a.Merge b).info_for_node_.entries = [] ↔
      ¬ ∃ o v, a.Binds o v ∧ b.Binds o v := by
    unfold AbstractField.Binds
    rw [List.eq_nil_iff_forall_not_mem]
    constructor
    · rintro h ⟨o, v, ha, hb⟩
      exact h (o, v) ((AbstractField.mem_Merge_iff a b (o, v)).2 ⟨ha, hb⟩)
    · intro h x hx
      have hx2 := (AbstractField.mem_Merge_iff a b x).1 hx
      exact h ⟨x.1, x.2, hx2.1, hx2.2⟩
  refine ⟨hiff, ?_, by decide⟩
  intro _ _ hdisj
  have hnil : (a.Merge b).info_for_node_.entries = [] :=
    hiff.2 (by rintro ⟨o, v, ha, hb⟩; exact hdisj o v v ha hb)
  cases hm : a.Merge b with
  | mk m =>
    rw [hm] at hnil
    cases m with
    | mk entries ordered =>
      dsimp only at hnil
      subst hnil
      rfl

/-- Witness of C24: the fields `{1 -> 2}` and `{3 -> 4}` are non-empty and bind no
common object, and their merge is the empty field. -/
theorem AbstractField_Merge_empty_iff_witness :
    (AbstractField.single 1 2).Merge (AbstractField.single 3 4) = AbstractField.empty :=
  (AbstractField_Merge_empty_iff (AbstractField.single 1 2) (AbstractField.single 3 4)).2.1
    (by decide) (by decide)
    (by
      intro o v w h1 h2
      have h3 : (o, v) ∈ [((1 : Node), (2 : Node))] := h1
      have h4 : (o, w) ∈ [((3 : Node), (4 : Node))] := h2
      simp only [List.mem_singleton, Prod.mk.injEq] at h3 h4
      have h5 : (1 : Node) = 3 := h3.1.symm.trans h4.1
      exact absurd h5 (by decide))

/-! ## Theorems: the constructors and the cursor of `AbstractElements` -/

/-- C22: `AbstractElements(object, index, value)` is the ring that
`AbstractElements().Extend(object, index, value)` returns: slot 0 holds the
triple, slots 1..7 are empty and the cursor is 1. -/
theorem AbstractElements_single_eq_Extend_empty (object index value : Node) :
    AbstractElements.empty.Extend object index value =
      some (AbstractElements.single object index value) ∧
    (AbstractElements.single object index value).elements_ ⟨0, by decide⟩ =
      { object := object, index := index, value := value } ∧
    (∀ j : Fin kMaxTrackedElements, 1 ≤ j.val →
      (AbstractElements.single object index value).elements_ j = {}) ∧
    (AbstractElements.single object index value).next_index_ = 1 := by
  refine ⟨AbstractElements.Extend_empty object index value, ?_, ?_, rfl⟩
  · unfold AbstractElements.single
    dsimp only
    rw [Function.update_same]
  · intro j hj
    have hne : j ≠ ⟨0, by decide⟩ := by
      intro h
      rw [h] at hj
      exact absurd hj (by decide)
    unfold AbstractElements.single
    dsimp only
    rw [Function.update_noteq hne]
    rfl

/-- Witness of C22: in the ring built from the triple (10, 11, 12), slot 3 is empty. -/
theorem AbstractElements_single_eq_Extend_empty_witness :
    (AbstractElements.single 10 11 12).elements_ ⟨3, by decide⟩ = {} :=
  (AbstractElements_single_eq_Extend_empty 10 11 12).2.2.1 ⟨3, by decide⟩ (by decide)

/-- C23: every ring reached from either constructor of `AbstractElements` by any
number of `Extend` calls exists, has its cursor `next_index_` strictly below 8,
and so accepts a further `Extend`: the slot write is inside the array. -/
theorem AbstractElements_cursor_lt (object index value : Node) (ts : List Element) :
    (∃ r : AbstractElements, AbstractElements.empty.ExtendAll ts = some r ∧
      r.next_index_ < 8 ∧ ∀ o i v, (r.Extend o i v).isSome = true) ∧
    (∃ r : AbstractElements,
      (AbstractElements.single object index value).ExtendAll ts = some r ∧
      r.next_index_ < 8 ∧ ∀ o i v, (r.Extend o i v).isSome = true) := by
  have key : ∀ us : List Element, ∃ r : AbstractElements,
      AbstractElements.empty.ExtendAll us = some r ∧
      r.next_index_ < 8 ∧ ∀ o i v, (r.Extend o i v).isSome = true := by
    intro us
    obtain ⟨r, hr, hcur, _⟩ := AbstractElements.ExtendAll_empty us
    have hc : r.next_index_ < kMaxTrackedElements := by
      rw [hcur]; exact Nat.mod_lt _ (by decide)
    refine ⟨r, hr, hc, ?_⟩
    intro o i v
    rw [AbstractElements.Extend_of_lt r o i v hc]
    rfl
  refine ⟨key ts, ?_⟩
  obtain ⟨r, hr, h⟩ := key ({ object := object, index := index, value := value } :: ts)
  exact ⟨r, (AbstractElements.ExtendAll_single object index value ts).trans hr, h⟩

/-! ## Theorems: the parameter of the access operators -/

/-- C25: `FieldAccessOf` applied to the operator built by `LoadField(a)` or
`StoreField(a)` returns `a` itself, with the same `write_barrier_kind`, `type`
and `name`; `ElementAccessOf` applied to `LoadElement(e)` or `StoreElement(e)`
returns `e` itself. -/
theorem access_parameter_round_trip (a : FieldAccess) (e : ElementAccess) :
    FieldAccessOf (SimplifiedOperatorBuilder.LoadField a) = some a ∧
    FieldAccessOf (SimplifiedOperatorBuilder.StoreField a) = some a ∧
    ElementAccessOf (SimplifiedOperatorBuilder.LoadElement e) = some e ∧
    ElementAccessOf (SimplifiedOperatorBuilder.StoreElement e) = some e ∧
    (∀ b, FieldAccessOf (SimplifiedOperatorBuilder.LoadField a) = some b →
      b.write_barrier_kind = a.write_barrier_kind ∧ b.type = a.type ∧ b.name = a.name) := by
  refine ⟨rfl, rfl, rfl, rfl, ?_⟩
  intro b hb
  have h : a = b := Option.some.inj hb
  rw [h]
  exact ⟨rfl, rfl, rfl⟩

end V8
